import Mathlib

set_option linter.unusedVariables false

/-!
Shallow embedding of the cappuccino manifest-execution engine (main.go).

Strings are modelled as `List Char`; the working tree is a flat list of
entries carrying a path, a directory flag and, for regular files, an
optional readable content (`none` models an unreadable / nonexistent
file).  Fallible operations return the new tree together with an
`Option Err`.  External process execution is modelled by an oracle
deciding the success of each spawned command, plus a log of spawned
commands.
-/

namespace Cappuccino

/-- `leadsWith old s` holds when `old` is a literal prefix of `s`. -/
def leadsWith : List Char → List Char → Bool
  | [], _ => true
  | _ :: _, [] => false
  | a :: as, b :: bs => a == b && leadsWith as bs

/-- `hasOccurrence old s` : some literal occurrence of `old` starts inside `s`
(also at the very end, so `hasOccurrence [] s = true`). -/
def hasOccurrence (old : List Char) : List Char → Bool
  | [] => leadsWith old []
  | c :: rest => leadsWith old (c :: rest) || hasOccurrence old rest

/-- One pass of Go's `strings.Replace(s, old, new, -1)` for `old ≠ ""`:
replace each leftmost, non-overlapping occurrence of `old` by `new`. -/
def replAux (old new : List Char) : List Char → List Char
  | [] => []
  | c :: rest =>
    if leadsWith old (c :: rest) then
      new ++ replAux old new (rest.drop (old.length - 1))
    else
      c :: replAux old new rest
termination_by s => s.length
decreasing_by
  · simp only [List.length_cons, List.length_drop]
    omega
  · simp

/-- Go's `strings.Replace` with `old = ""` inserts `new` at every character
boundary, including both ends. -/
def interleave (new : List Char) : List Char → List Char
  | [] => new
  | c :: rest => new ++ c :: interleave new rest

/-- Go's `strings.Replace(s, old, new, -1)` (replace all occurrences),
including its `old == new` short-circuit and the empty-`old` behaviour. -/
def goReplaceAll (s old new : List Char) : List Char :=
  if old = new then s
  else if old = [] then interleave new s
  else replAux old new s

/-- Greedy leftmost split of `s` on the literal separator `old`: the pieces
between the non-overlapping occurrences that `replAux` rewrites. -/
def goSplit (old : List Char) : List Char → List (List Char)
  | [] => [[]]
  | c :: rest =>
    if leadsWith old (c :: rest) then
      [] :: goSplit old (rest.drop (old.length - 1))
    else
      match goSplit old rest with
      | [] => [[c]]
      | p :: ps => (c :: p) :: ps
termination_by s => s.length
decreasing_by
  · simp only [List.length_cons, List.length_drop]
    omega
  · simp

/-- Go's `strings.Join(ps, sep)`. -/
def joinWith (sep : List Char) : List (List Char) → List Char
  | [] => []
  | [p] => p
  | p :: ps => p ++ sep ++ joinWith sep ps

/-- Go's `strings.Split(s, sep)` for a one-character separator. -/
def splitChar (sep : Char) : List Char → List (List Char)
  | [] => [[]]
  | c :: rest =>
    if c = sep then [] :: splitChar sep rest
    else
      match splitChar sep rest with
      | [] => [[c]]
      | p :: ps => (c :: p) :: ps

/-- `strings.Split(s, "\n")`, as used by `indentBlock`. -/
def splitNl (s : List Char) : List (List Char) := splitChar '\n' s

/-- Index-passing worker for `Map` (the `for i, v := range vs` loop). -/
def mapAux (f : List Char → Nat → List Char) : List (List Char) → Nat → List (List Char)
  | [], _ => []
  | v :: vs, i => f v i :: mapAux f vs (i + 1)

/-- main.go `Map`: apply `f` to every string of the slice together with its
position. -/
def Map (vs : List (List Char)) (f : List Char → Nat → List Char) : List (List Char) :=
  mapAux f vs 0

/-- main.go `indentBlock`: split on newlines and prepend `indent` spaces to
every line except the first; a nil indent pointer leaves lines alone. -/
def indentBlock (content : List Char) (indent : Option Nat) : List (List Char) :=
  Map (splitNl content) (fun s i =>
    if i ≠ 0 ∧ indent.isSome then List.replicate (indent.getD 0) ' ' ++ s else s)

/-- The indented block as written back by `substituteInFile`:
`strings.Join(indentBlock(value, indent), "\n")`. -/
def indentJoin (value : List Char) (indent : Option Nat) : List Char :=
  joinWith ['\n'] (indentBlock value indent)

/-- The white-space set of Go's `unicode.IsSpace` restricted to Latin-1
(the only code points a manifest value realistically carries). -/
def goIsSpace (c : Char) : Bool :=
  c = ' ' || c = '\t' || c = '\n' || c = '\x0b' || c = '\x0c' || c = '\r' ||
    c = '\x85' || c = '\xa0'

/-- Drop the leading white-space run. -/
def trimLeft : List Char → List Char
  | [] => []
  | c :: rest => if goIsSpace c then trimLeft rest else c :: rest

/-- Go's `strings.TrimSpace`: drop leading and trailing white space. -/
def trimSpace (s : List Char) : List Char :=
  (trimLeft (trimLeft s).reverse).reverse

/-- `bufio.ScanLines` strips one trailing carriage return from a line. -/
def dropCR (l : List Char) : List Char :=
  match l.getLast? with
  | some c => if c = '\r' then l.dropLast else l
  | none => l

/-- Accumulator worker for `goLines`; `acc` holds the current line reversed. -/
def goLinesAux (acc : List Char) : List Char → List (List Char)
  | [] => if acc = [] then [] else [dropCR acc.reverse]
  | c :: rest =>
    if c = '\n' then dropCR acc.reverse :: goLinesAux [] rest
    else goLinesAux (c :: acc) rest

/-- The sequence of lines a `bufio.Scanner` yields over the given content:
split at newlines, strip a trailing `'\r'` per line, no empty token after a
final newline. -/
def goLines (s : List Char) : List (List Char) := goLinesAux [] s

/-- Errors the file-system primitives can raise, tagged with the path they
concern (the Go code propagates the standard library's `*PathError`). -/
inductive Err
  | openErr (path : String)
  | readErr (path : String)
  | removeErr (path : String)
deriving DecidableEq

/-- One node of the working tree: a path, whether it is a directory and,
for regular files, the readable content (`none` = unreadable/absent). -/
structure FSEntry where
  path : String
  isDir : Bool
  content : Option (List Char)
deriving DecidableEq

/-- The working tree, in the order the file-system enumerates entries. -/
abbrev FS := List FSEntry

/-- First entry registered under a path. -/
def findEntry : FS → String → Option FSEntry
  | [], _ => none
  | e :: es, p => if e.path = p then some e else findEntry es p

/-- `ioutil.ReadFile`: succeeds only on a readable regular file. -/
def readFile (fs : FS) (p : String) : Option (List Char) :=
  match findEntry fs p with
  | none => none
  | some e => if e.isDir then none else e.content

/-- `ioutil.WriteFile` / `os.Create`: truncate the file registered under the
path, or register a fresh regular file. -/
def writeFile : FS → String → List Char → FS
  | [], p, c => [⟨p, false, some c⟩]
  | e :: es, p, c =>
    if e.path = p then ⟨e.path, e.isDir, some c⟩ :: es
    else e :: writeFile es p c

/-- Drop the entry registered under a path. -/
def removeEntry : FS → String → FS
  | [], _ => []
  | e :: es, p => if e.path = p then es else e :: removeEntry es p

/-- main.go `deleteFile` (`os.Remove`): error when nothing lives there. -/
def deleteFile (fs : FS) (p : String) : FS × Option Err :=
  match findEntry fs p with
  | none => (fs, some (Err.removeErr p))
  | some _ => (removeEntry fs p, none)

/-- main.go `copyFile`: `os.Open(source)` and `os.Create(destination)` both
happen before either error is inspected, so the destination is created (or
truncated) even when the source cannot be opened; the source's open error is
checked first.  Creation is assumed to succeed (the destination path is
writable). -/
def copyFile (fs : FS) (source destination : String) : FS × Option Err :=
  let srcContent := readFile fs source
  let fs1 := writeFile fs destination []
  match srcContent with
  | none => (fs1, some (Err.openErr source))
  | some c => (writeFile fs1 destination c, none)

/-- main.go `moveFile`: `copyFile` then `deleteFile` on the source, each
error propagated as-is. -/
def moveFile (fs : FS) (source destination : String) : FS × Option Err :=
  match copyFile fs source destination with
  | (fs1, some e) => (fs1, some e)
  | (fs1, none) =>
    match deleteFile fs1 source with
    | (fs2, some e) => (fs2, some e)
    | (fs2, none) => (fs2, none)

/-- main.go `substituteInFile`: read the whole file, replace every
occurrence of `marker` by the indent-adjusted `value`, write back. -/
def substituteInFile (fs : FS) (path : String) (marker value : List Char)
    (indent : Option Nat) : FS × Option Err :=
  match readFile fs path with
  | none => (fs, some (Err.readErr path))
  | some content =>
    let indentedBlock := indentJoin value indent
    (writeFile fs path (goReplaceAll content marker indentedBlock), none)

/-- The regular-file paths `filepath.Walk` visits, in enumeration order
(directories are skipped by the callback's `!f.IsDir()` guard). -/
def walkOrder (fs : FS) : List String :=
  (fs.filter (fun e => !e.isDir)).map (fun e => e.path)

/-- The walk of `substituteInPath`: substitute file after file, stopping at
the first failing file and propagating its error. -/
def walkSub (marker value : List Char) (indent : Option Nat) :
    List String → FS → FS × Option Err
  | [], fs => (fs, none)
  | p :: rest, fs =>
    match substituteInFile fs p marker value indent with
    | (fs1, none) => walkSub marker value indent rest fs1
    | (fs1, some e) => (fs1, some e)

/-- main.go `substituteInPath`: apply the substitution to every regular
file of the whole working tree. -/
def substituteInPath (fs : FS) (marker value : List Char)
    (indent : Option Nat) : FS × Option Err :=
  walkSub marker value indent (walkOrder fs) fs

/-- main.go `substituteFile`: dispatch on whether a path was supplied. -/
def substituteFile (fs : FS) (path : String) (marker value : List Char)
    (indent : Option Nat) : FS × Option Err :=
  if path ≠ "" then substituteInFile fs path marker value indent
  else substituteInPath fs marker value indent

/-- The fixed token `processWarningInFile` greps for. -/
def warningToken : List Char := (r"[cappuccino-warning]").toList

/-- The scan loop of `processWarningInFile`: `line` starts at 1 and is
incremented for every scanned line; each line containing the token yields
one report of the line number and the file's path. -/
def scanWarnAux (path : String) : Nat → List (List Char) → List (Nat × String)
  | _, [] => []
  | n, l :: ls =>
    (if hasOccurrence warningToken l then [(n, path)] else []) ++
      scanWarnAux path (n + 1) ls

/-- main.go `processWarningInFile` on an already-opened file content. -/
def processWarningInFile (path : String) (content : List Char) :
    List (Nat × String) :=
  scanWarnAux path 1 (goLines content)

/-- main.go `ActionContent` (the `variable` field is spelled `varname`
because `variable` is reserved in Lean).  `indent` is the YAML integer,
always passed by address in `processContent`, hence never nil there. -/
structure ActionContent where
  type : String
  command : List Char
  source : String
  destination : String
  varname : List Char
  text : List Char
  path : String
  value : List Char
  indent : Nat
deriving DecidableEq

/-- main.go `Action`. -/
structure Action where
  name : String
  type : String
  content : List ActionContent
deriving DecidableEq

/-- main.go `Config`. -/
structure Config where
  engine : String
  version : String
  actions : List Action
deriving DecidableEq

/-- Decides whether a spawned external command exits successfully; the
argument is the program followed by its arguments. -/
abbrev Oracle := List (List Char) → Bool

/-- The mutable state a run threads: the working tree plus the log of
spawned external commands (program and arguments, as split). -/
structure RunSt where
  fs : FS
  log : List (List (List Char))
deriving DecidableEq

/-- The framed marker of a `substitute` entry: `[cappuccino-var-<name>]`. -/
def framedMarker (varname : List Char) : List Char :=
  (r"[cappuccino-var-").toList ++ varname ++ (r"]").toList

/-- main.go `processContent`: resolve the effective type (entry type, else
the action's type) and dispatch.  Returns the successor state and whether
the run aborted (`os.Exit` after a reported error).  An effective type
matching no case falls through the `switch` and does nothing. -/
def processContent (oracle : Oracle) (action : Action) (c : ActionContent)
    (s : RunSt) : RunSt × Bool :=
  let contentType := if c.type = "" then action.type else c.type
  if contentType = (r"exec") then
    let executableCommand := splitChar ' ' c.command
    ({ s with log := s.log ++ [executableCommand] }, !oracle executableCommand)
  else if contentType = (r"replace") ∨ contentType = (r"substitute") then
    let value := trimSpace c.value
    let marker := if contentType = (r"replace") then c.text
                  else framedMarker c.varname
    match substituteFile s.fs c.path marker value (some c.indent) with
    | (fs1, none) => ({ s with fs := fs1 }, false)
    | (fs1, some _) => ({ s with fs := fs1 }, true)
  else if contentType = (r"copy") ∨ contentType = (r"template") then
    let source := if contentType = (r"copy") then c.source
                  else (r".cappuccino/") ++ c.path
    let destination := if contentType = (r"copy") then c.destination else c.path
    match copyFile s.fs source destination with
    | (fs1, none) => ({ s with fs := fs1 }, false)
    | (fs1, some _) => ({ s with fs := fs1 }, true)
  else if contentType = (r"move") then
    match moveFile s.fs c.source c.destination with
    | (fs1, none) => ({ s with fs := fs1 }, false)
    | (fs1, some _) => ({ s with fs := fs1 }, true)
  else if contentType = (r"delete") then
    match deleteFile s.fs c.path with
    | (fs1, none) => ({ s with fs := fs1 }, false)
    | (fs1, some _) => ({ s with fs := fs1 }, true)
  else
    (s, false)

/-- main.go `processAction`'s inner loop, instrumented with the 0-based
positions of the entries that actually executed (the aborting entry
included).  Mirrors that `os.Exit` stops everything at once. -/
def runEntries (oracle : Oracle) (action : Action) :
    List ActionContent → RunSt → RunSt × Bool × List Nat
  | [], s => (s, false, [])
  | c :: rest, s =>
    match processContent oracle action c s with
    | (s1, true) => (s1, true, [0])
    | (s1, false) =>
      match runEntries oracle action rest s1 with
      | (s2, aborted, tr) => (s2, aborted, 0 :: tr.map (· + 1))

/-- main.go `processConfig`'s action loop, instrumented with the executed
(action index, entry index) pairs. -/
def runActions (oracle : Oracle) :
    List Action → RunSt → RunSt × Bool × List (Nat × Nat)
  | [], s => (s, false, [])
  | a :: rest, s =>
    match runEntries oracle a a.content s with
    | (s1, true, tr) => (s1, true, tr.map (fun j => (0, j)))
    | (s1, false, tr) =>
      match runActions oracle rest s1 with
      | (s2, aborted, tr2) =>
        (s2, aborted,
          tr.map (fun j => (0, j)) ++ tr2.map (fun ij => (ij.1 + 1, ij.2)))

/-- The command spawned by `removeGitDirectory` (`rm -rf .git`). -/
def rmGitParts : List (List Char) := [(r"rm").toList, (r"-rf").toList, (r".git").toList]

/-- main.go `processConfig`: remove the `.git` directory (one external
command, whose failure also aborts), then walk the actions in order. -/
def runConfig (oracle : Oracle) (config : Config) (s : RunSt) :
    RunSt × Bool × List (Nat × Nat) :=
  let s1 : RunSt := { s with log := s.log ++ [rmGitParts] }
  if oracle rmGitParts then runActions oracle config.actions s1
  else (s1, true, [])

/-- Declaration order of a manifest's content entries, as
(action index, entry index) pairs. -/
def declOrder : List Action → List (Nat × Nat)
  | [] => []
  | a :: rest =>
    (List.range a.content.length).map (fun j => (0, j)) ++
      (declOrder rest).map (fun ij => (ij.1 + 1, ij.2))

/-- `os.Create` on this path would succeed: nothing is registered there, or
the registered entry is a regular file. -/
def creatable (fs : FS) (p : String) : Bool :=
  match findEntry fs p with
  | none => true
  | some e => !e.isDir

/-! ## Lemmas -/

/-- The empty marker occurs in every string (at its end if nowhere else). -/
theorem hasOccurrence_nil (s : List Char) : hasOccurrence [] s = true := by
  induction s with
  | nil => rfl
  | cons c rest ih => simp [hasOccurrence, leadsWith]

/-- A string with no occurrence of the marker is returned untouched by the
replacement pass. -/
theorem replAux_not_occ (old new : List Char) (s : List Char)
    (h : hasOccurrence old s = false) : replAux old new s = s := by
  induction s with
  | nil => simp [replAux]
  | cons c rest ih =>
    simp only [hasOccurrence, Bool.or_eq_false_iff] at h
    rw [replAux]
    simp [h.1, ih h.2]

/-- `goReplaceAll` is the identity when the marker does not occur. -/
theorem goReplaceAll_not_occ (s old new : List Char)
    (h : hasOccurrence old s = false) : goReplaceAll s old new = s := by
  unfold goReplaceAll
  by_cases h1 : old = new
  · simp [h1]
  · by_cases h2 : old = []
    · subst h2
      simp [hasOccurrence_nil] at h
    · simp [h1, h2, replAux_not_occ old new s h]

/-- A prefix stays a prefix under extension on the right. -/
theorem leadsWith_append (old u v : List Char) (h : leadsWith old u = true) :
    leadsWith old (u ++ v) = true := by
  induction old generalizing u with
  | nil => rfl
  | cons a as ih =>
    cases u with
    | nil => simp [leadsWith] at h
    | cons b bs =>
      simp only [leadsWith, Bool.and_eq_true, beq_iff_eq] at h
      simp only [List.cons_append, leadsWith, Bool.and_eq_true, beq_iff_eq]
      exact ⟨h.1, ih bs h.2⟩

/-- A successful prefix test decomposes the string. -/
theorem leadsWith_decomp (old s : List Char) (h : leadsWith old s = true) :
    old ++ s.drop old.length = s := by
  induction old generalizing s with
  | nil => simp
  | cons a as ih =>
    cases s with
    | nil => simp [leadsWith] at h
    | cons b bs =>
      simp only [leadsWith, Bool.and_eq_true, beq_iff_eq] at h
      simp only [List.cons_append, List.length_cons, List.drop_succ_cons]
      rw [h.1, ih bs h.2]

/-- The greedy split never yields an empty piece list. -/
theorem goSplit_ne_nil (old s : List Char) : goSplit old s ≠ [] := by
  induction s using goSplit.induct old with
  | case1 => simp [goSplit]
  | case2 c rest h ih =>
    rw [goSplit, if_pos h]
    simp
  | case3 c rest h hnil ih => exact absurd hnil ih
  | case4 c rest h p ps heq ih =>
    rw [goSplit, if_neg h, heq]
    simp

/-- The head piece of the greedy split is a prefix of the input. -/
theorem goSplit_head_decomp (old s : List Char) :
    ∃ p ps v, goSplit old s = p :: ps ∧ p ++ v = s := by
  induction s using goSplit.induct old with
  | case1 => exact ⟨[], [], [], by simp [goSplit], rfl⟩
  | case2 c rest h ih =>
    refine ⟨[], goSplit old (rest.drop (old.length - 1)), c :: rest, ?_, rfl⟩
    rw [goSplit, if_pos h]
  | case3 c rest h hnil ih => exact absurd hnil (goSplit_ne_nil old rest)
  | case4 c rest h p ps heq ih =>
    obtain ⟨p', ps', v, hsp, hv⟩ := ih
    have hpe : p = p' := by
      have h2 := heq.symm.trans hsp
      injection h2
    refine ⟨c :: p, ps, v, ?_, ?_⟩
    · rw [goSplit, if_neg h, heq]
    · rw [List.cons_append, hpe, hv]

/-- Two-piece unfolding of `joinWith`. -/
theorem joinWith_cons₂ (sep p q : List Char) (ps : List (List Char)) :
    joinWith sep (p :: q :: ps) = p ++ sep ++ joinWith sep (q :: ps) := rfl

/-- Pushing a character into the head piece commutes with joining. -/
theorem joinWith_cons_head (sep p : List Char) (c : Char)
    (ps : List (List Char)) :
    joinWith sep ((c :: p) :: ps) = c :: joinWith sep (p :: ps) := by
  cases ps with
  | nil => rfl
  | cons q qs => simp [joinWith_cons₂]

/-- The replacement pass equals: split greedily on the marker, rejoin with
the replacement. -/
theorem replAux_eq_joinWith (old new s : List Char) :
    replAux old new s = joinWith new (goSplit old s) := by
  induction s using goSplit.induct old with
  | case1 => simp [replAux, goSplit, joinWith]
  | case2 c rest h ih =>
    rw [replAux, if_pos h, goSplit, if_pos h]
    obtain ⟨q, qs, hq⟩ := List.exists_cons_of_ne_nil
      (goSplit_ne_nil old (rest.drop (old.length - 1)))
    rw [hq] at ih ⊢
    rw [joinWith_cons₂]
    simp [ih]
  | case3 c rest h hnil ih => exact absurd hnil (goSplit_ne_nil old rest)
  | case4 c rest h p ps heq ih =>
    rw [replAux, if_neg h, goSplit, if_neg h, heq]
    rw [heq] at ih
    rw [joinWith_cons_head, ih]

/-- Rejoining the greedy split with the marker itself restores the input. -/
theorem joinWith_goSplit (old s : List Char) (hne : old ≠ []) :
    joinWith old (goSplit old s) = s := by
  induction s using goSplit.induct old with
  | case1 => simp [goSplit, joinWith]
  | case2 c rest h ih =>
    rw [goSplit, if_pos h]
    obtain ⟨q, qs, hq⟩ := List.exists_cons_of_ne_nil
      (goSplit_ne_nil old (rest.drop (old.length - 1)))
    rw [hq] at ih ⊢
    rw [joinWith_cons₂, List.nil_append, ih]
    obtain ⟨d, ds, rfl⟩ := List.exists_cons_of_ne_nil hne
    have hdec := leadsWith_decomp (d :: ds) (c :: rest) h
    simpa using hdec
  | case3 c rest h hnil ih => exact absurd hnil (goSplit_ne_nil old rest)
  | case4 c rest h p ps heq ih =>
    rw [goSplit, if_neg h, heq]
    rw [heq] at ih
    rw [joinWith_cons_head, ih]

/-- No piece of the greedy split contains an occurrence of the marker. -/
theorem goSplit_free (old s : List Char) (hne : old ≠ []) :
    ∀ q ∈ goSplit old s, hasOccurrence old q = false := by
  induction s using goSplit.induct old with
  | case1 =>
    intro q hq
    simp only [goSplit, List.mem_singleton] at hq
    subst hq
    obtain ⟨d, ds, rfl⟩ := List.exists_cons_of_ne_nil hne
    simp [hasOccurrence, leadsWith]
  | case2 c rest h ih =>
    intro q hq
    rw [goSplit, if_pos h] at hq
    rcases List.mem_cons.1 hq with rfl | hq
    · obtain ⟨d, ds, rfl⟩ := List.exists_cons_of_ne_nil hne
      simp [hasOccurrence, leadsWith]
    · exact ih q hq
  | case3 c rest h hnil ih => exact absurd hnil (goSplit_ne_nil old rest)
  | case4 c rest h p ps heq ih =>
    intro q hq
    rw [goSplit, if_neg h, heq] at hq
    rcases List.mem_cons.1 hq with hqe | hq
    · subst hqe
      simp only [hasOccurrence, Bool.or_eq_false_iff]
      refine ⟨?_, ih p (heq ▸ List.mem_cons_self p ps)⟩
      obtain ⟨p', ps', v, hsp, hv⟩ := goSplit_head_decomp old rest
      have hpe : p = p' := by
        have h2 := heq.symm.trans hsp
        injection h2
      by_contra hcon
      rw [Bool.not_eq_false] at hcon
      have h2 : leadsWith old ((c :: p) ++ v) = true :=
        leadsWith_append _ _ _ hcon
      have h3 : (c :: p) ++ v = c :: rest := by
        rw [List.cons_append, hpe, hv]
      rw [h3] at h2
      exact h h2
    · exact ih q (heq ▸ List.mem_cons_of_mem p hq)

/-- `goReplaceAll` with a non-empty marker is: greedy split, rejoin with the
replacement. -/
theorem goReplaceAll_eq_joinWith (s old new : List Char) (hne : old ≠ []) :
    goReplaceAll s old new = joinWith new (goSplit old s) := by
  unfold goReplaceAll
  by_cases h1 : old = new
  · subst h1
    simp [hne, joinWith_goSplit old s hne]
  · simp [h1, hne, replAux_eq_joinWith old new s]

/-- Character-based splitting always yields at least one piece. -/
theorem splitChar_ne_nil (sep : Char) (s : List Char) :
    splitChar sep s ≠ [] := by
  cases s with
  | nil => simp [splitChar]
  | cons c rest =>
    rw [splitChar]
    by_cases h : c = sep
    · simp [h]
    · simp only [h, if_false]
      cases hr : splitChar sep rest <;> simp

/-- Rejoining a character-based split with the separator restores the
input. -/
theorem joinWith_splitChar (sep : Char) (s : List Char) :
    joinWith [sep] (splitChar sep s) = s := by
  induction s with
  | nil => rfl
  | cons c rest ih =>
    rw [splitChar]
    by_cases h : c = sep
    · subst h
      rw [if_pos rfl]
      obtain ⟨q, qs, hq⟩ := List.exists_cons_of_ne_nil (splitChar_ne_nil c rest)
      rw [hq, joinWith_cons₂]
      rw [hq] at ih
      simp only [List.nil_append, List.cons_append, List.nil_append]
      rw [ih]
    · simp only [h, if_false]
      obtain ⟨q, qs, hq⟩ := List.exists_cons_of_ne_nil (splitChar_ne_nil sep rest)
      rw [hq] at ih ⊢
      rw [joinWith_cons_head, ih]

/-- A string free of the separator is returned as the single piece. -/
theorem splitChar_not_mem (sep : Char) (s : List Char) (h : sep ∉ s) :
    splitChar sep s = [s] := by
  induction s with
  | nil => rfl
  | cons c rest ih =>
    simp only [List.mem_cons, not_or] at h
    rw [splitChar, if_neg (fun hc => h.1 hc.symm), ih h.2]

/-- Mapping with indices that start past zero is an index-free map whenever
the function is index-independent away from zero. -/
theorem mapAux_shift (f : List Char → Nat → List Char) (g : List Char → List Char)
    (hg : ∀ v j, f v (j + 1) = g v) :
    ∀ (ls : List (List Char)) (i : Nat), mapAux f ls (i + 1) = ls.map g := by
  intro ls
  induction ls with
  | nil => intro i; rfl
  | cons v vs ih =>
    intro i
    rw [mapAux, hg, List.map_cons, ih (i + 1)]

/-- Index-independent identity mapping leaves the list unchanged. -/
theorem mapAux_id (f : List Char → Nat → List Char)
    (hf : ∀ v j, f v j = v) :
    ∀ (ls : List (List Char)) (i : Nat), mapAux f ls i = ls := by
  intro ls
  induction ls with
  | nil => intro i; rfl
  | cons v vs ih =>
    intro i
    rw [mapAux, hf, ih (i + 1)]

/-- With a supplied indent, `indentBlock` keeps the first line and prepends
exactly `n` spaces to every later line. -/
theorem indentBlock_some (value : List Char) (n : Nat) :
    indentBlock value (some n) =
      (splitNl value).headD [] ::
        ((splitNl value).tail).map (fun l => List.replicate n ' ' ++ l) := by
  obtain ⟨l, ls, hl⟩ := List.exists_cons_of_ne_nil (splitChar_ne_nil '\n' value)
  unfold indentBlock Map
  rw [show splitNl value = l :: ls from hl]
  rw [mapAux]
  simp only [hl, List.headD_cons, List.tail_cons]
  congr 1
  exact mapAux_shift _ _ (fun v j => by simp) ls 0

/-- A nil indent pointer leaves every line unchanged. -/
theorem indentBlock_none (value : List Char) :
    indentBlock value none = splitNl value := by
  unfold indentBlock Map
  exact mapAux_id _ (fun v j => by simp) (splitNl value) 0

/-- Indent zero also leaves every line unchanged. -/
theorem indentBlock_zero (value : List Char) :
    indentBlock value (some 0) = splitNl value := by
  unfold indentBlock Map
  exact mapAux_id _ (fun v j => by simp) (splitNl value) 0

/-- Without an indent value, the block written back is the value itself. -/
theorem indentJoin_none (value : List Char) : indentJoin value none = value := by
  rw [indentJoin, indentBlock_none]
  exact joinWith_splitChar '\n' value

/-- With indent zero, the block written back is the value itself. -/
theorem indentJoin_zero (value : List Char) :
    indentJoin value (some 0) = value := by
  rw [indentJoin, indentBlock_zero]
  exact joinWith_splitChar '\n' value

/-- A single-line value is never modified, whatever the indent. -/
theorem indentJoin_single (value : List Char) (n : Nat)
    (h : '\n' ∉ value) : indentJoin value (some n) = value := by
  rw [indentJoin, indentBlock_some]
  rw [show splitNl value = [value] from splitChar_not_mem '\n' value h]
  rfl

/-- `trimLeft` removes a white-space run and nothing else. -/
theorem trimLeft_decomp (s : List Char) :
    ∃ pre, pre ++ trimLeft s = s ∧ pre.all goIsSpace = true := by
  induction s with
  | nil => exact ⟨[], rfl, rfl⟩
  | cons c rest ih =>
    by_cases h : goIsSpace c
    · obtain ⟨pre, hpre, hall⟩ := ih
      refine ⟨c :: pre, ?_, ?_⟩
      · rw [trimLeft, if_pos h, List.cons_append, hpre]
      · simp [hall, h]
    · refine ⟨[], ?_, rfl⟩
      rw [trimLeft, if_neg h, List.nil_append]

/-- The head surviving `trimLeft` is not white space. -/
theorem trimLeft_head (s : List Char) (a : Char)
    (h : (trimLeft s).head? = some a) : goIsSpace a = false := by
  induction s with
  | nil => simp [trimLeft] at h
  | cons c rest ih =>
    rw [trimLeft] at h
    by_cases hc : goIsSpace c
    · rw [if_pos hc] at h
      exact ih h
    · rw [if_neg hc] at h
      simp only [List.head?_cons, Option.some.injEq] at h
      subst h
      exact Bool.not_eq_true _ ▸ (by simpa using hc)

/-- `trimSpace` removes a white-space margin on each side and nothing
else. -/
theorem trimSpace_decomp (s : List Char) :
    ∃ pre post, pre ++ trimSpace s ++ post = s ∧
      pre.all goIsSpace = true ∧ post.all goIsSpace = true := by
  obtain ⟨pre, hpre, hpreall⟩ := trimLeft_decomp s
  obtain ⟨q, hq, hqall⟩ := trimLeft_decomp (trimLeft s).reverse
  refine ⟨pre, q.reverse, ?_, hpreall, by simpa using hqall⟩
  rw [trimSpace]
  have h1 : trimLeft s = (trimLeft (trimLeft s).reverse).reverse ++ q.reverse := by
    have h2 := congrArg List.reverse hq
    simpa using h2.symm
  rw [List.append_assoc, ← h1, hpre]

/-- The first character surviving `trimSpace` is not white space. -/
theorem trimSpace_head (s : List Char) (a : Char)
    (h : (trimSpace s).head? = some a) : goIsSpace a = false := by
  rw [trimSpace] at h
  obtain ⟨q, hq, hqall⟩ := trimLeft_decomp (trimLeft s).reverse
  have h1 : trimLeft s = (trimLeft (trimLeft s).reverse).reverse ++ q.reverse := by
    have h2 := congrArg List.reverse hq
    simpa using h2.symm
  have h3 : (trimLeft s).head? = some a := by
    rw [h1, List.head?_append]
    rw [h]
    rfl
  exact trimLeft_head s a h3

/-- The last character surviving `trimSpace` is not white space. -/
theorem trimSpace_last (s : List Char) (a : Char)
    (h : (trimSpace s).getLast? = some a) : goIsSpace a = false := by
  rw [trimSpace, List.getLast?_reverse] at h
  exact trimLeft_head (trimLeft s).reverse a h

/-- A readable path is always creatable. -/
theorem creatable_of_readable (fs : FS) (p : String)
    (h : (readFile fs p).isSome) : creatable fs p = true := by
  unfold readFile at h
  unfold creatable
  cases he : findEntry fs p with
  | none => rfl
  | some e =>
    rw [he] at h
    by_cases hd : e.isDir
    · simp [hd] at h
    · simp [hd]

/-- Reading through a write: the written path now holds the new content,
every other path is untouched. -/
theorem readFile_writeFile (fs : FS) (p : String) (c : List Char)
    (x : String) (hp : creatable fs p = true) :
    readFile (writeFile fs p c) x = if x = p then some c else readFile fs x := by
  induction fs with
  | nil =>
    by_cases hx : x = p
    · subst hx
      simp [writeFile, readFile, findEntry]
    · have hpx : ¬p = x := fun hc => hx hc.symm
      simp [writeFile, readFile, findEntry, hx, hpx]
  | cons e es ih =>
    by_cases he : e.path = p
    · have hd : e.isDir = false := by
        unfold creatable at hp
        rw [findEntry, if_pos he] at hp
        simpa using hp
      by_cases hx : x = p
      · subst hx
        simp [writeFile, readFile, findEntry, he, hd]
      · have hex : ¬e.path = x := fun hc => hx (hc.symm.trans he)
        have hpx : ¬p = x := fun hc => hx hc.symm
        simp [writeFile, readFile, findEntry, he, hex, hx, hpx]
    · have hp2 : creatable es p = true := by
        unfold creatable at hp ⊢
        rw [findEntry, if_neg he] at hp
        exact hp
      by_cases hex : e.path = x
      · have hxp : ¬x = p := fun hc => he (hex.trans hc)
        simp [writeFile, readFile, findEntry, he, hex, hxp]
      · have hrec := ih hp2
        simp only [writeFile, if_neg he]
        simp only [readFile, findEntry, if_neg hex]
        simp only [readFile] at hrec
        rw [hrec]

/-- Writing back the content a file already holds changes nothing. -/
theorem writeFile_self (fs : FS) (p : String) (c : List Char)
    (h : readFile fs p = some c) : writeFile fs p c = fs := by
  induction fs with
  | nil => simp [readFile, findEntry] at h
  | cons e es ih =>
    by_cases he : e.path = p
    · rw [readFile, findEntry, if_pos he] at h
      by_cases hd : e.isDir
      · simp [hd] at h
      · simp only [hd, if_false] at h
        rw [writeFile, if_pos he]
        have : (⟨e.path, e.isDir, some c⟩ : FSEntry) = e := by
          cases e
          simp_all
        rw [this]
    · rw [readFile, findEntry, if_neg he] at h
      rw [writeFile, if_neg he, ih (by rw [readFile]; exact h)]

/-- Lookups at other paths see through a write. -/
theorem findEntry_writeFile_ne (fs : FS) (p : String) (c : List Char)
    (x : String) (hx : x ≠ p) :
    findEntry (writeFile fs p c) x = findEntry fs x := by
  induction fs with
  | nil =>
    have hpx : ¬p = x := fun hc => hx hc.symm
    simp [writeFile, findEntry, hpx]
  | cons e es ih =>
    by_cases he : e.path = p
    · rw [writeFile, if_pos he]
      rw [findEntry, findEntry]
      by_cases hxe : e.path = x
      · exact absurd (hxe.symm.trans he) hx
      · rw [if_neg hxe, if_neg hxe]
    · rw [writeFile, if_neg he]
      rw [findEntry, findEntry]
      by_cases hxe : e.path = x
      · rw [if_pos hxe, if_pos hxe]
      · rw [if_neg hxe, if_neg hxe, ih]

/-- Lookups at other paths see through a removal. -/
theorem findEntry_removeEntry_ne (fs : FS) (p : String)
    (x : String) (hx : x ≠ p) :
    findEntry (removeEntry fs p) x = findEntry fs x := by
  induction fs with
  | nil => rfl
  | cons e es ih =>
    by_cases he : e.path = p
    · rw [removeEntry, if_pos he]
      rw [show findEntry (e :: es) x = findEntry es x by
        rw [findEntry, if_neg (fun hc => hx (hc.symm.trans he))]]
    · rw [removeEntry, if_neg he]
      rw [findEntry, findEntry]
      by_cases hxe : e.path = x
      · rw [if_pos hxe, if_pos hxe]
      · rw [if_neg hxe, if_neg hxe, ih]

/-- An unregistered path resolves to nothing. -/
theorem findEntry_not_mem (fs : FS) (p : String)
    (h : p ∉ fs.map (fun e => e.path)) : findEntry fs p = none := by
  induction fs with
  | nil => rfl
  | cons e es ih =>
    simp only [List.map_cons, List.mem_cons, not_or] at h
    rw [findEntry, if_neg (fun hc => h.1 hc.symm), ih h.2]

/-- The paths after a write are the old paths, with the target appended
when it was not registered yet. -/
theorem mem_writeFile_paths (fs : FS) (p : String) (c : List Char)
    (x : String) :
    x ∈ (writeFile fs p c).map (fun e => e.path) ↔
      x ∈ fs.map (fun e => e.path) ∨ x = p := by
  induction fs with
  | nil => simp [writeFile]
  | cons e es ih =>
    by_cases he : e.path = p
    · rw [writeFile, if_pos he]
      simp only [List.map_cons, List.mem_cons]
      constructor
      · rintro (h | h)
        · exact Or.inl (Or.inl h)
        · exact Or.inl (Or.inr h)
      · rintro ((h | h) | h)
        · exact Or.inl h
        · exact Or.inr h
        · exact Or.inl (h.trans he.symm)
    · rw [writeFile, if_neg he]
      simp only [List.map_cons, List.mem_cons, ih]
      tauto

/-- Writes preserve the uniqueness of registered paths. -/
theorem writeFile_nodup (fs : FS) (p : String) (c : List Char)
    (h : (fs.map (fun e => e.path)).Nodup) :
    ((writeFile fs p c).map (fun e => e.path)).Nodup := by
  induction fs with
  | nil => simp [writeFile]
  | cons e es ih =>
    simp only [List.map_cons, List.nodup_cons] at h
    by_cases he : e.path = p
    · rw [writeFile, if_pos he]
      simp only [List.map_cons, List.nodup_cons]
      exact h
    · rw [writeFile, if_neg he]
      simp only [List.map_cons, List.nodup_cons, mem_writeFile_paths]
      exact ⟨by rintro (hc | hc); exacts [h.1 hc, he hc], ih h.2⟩

/-- With unique paths, removing a path makes it unresolvable. -/
theorem findEntry_removeEntry_self (fs : FS) (p : String)
    (h : (fs.map (fun e => e.path)).Nodup) :
    findEntry (removeEntry fs p) p = none := by
  induction fs with
  | nil => rfl
  | cons e es ih =>
    simp only [List.map_cons, List.nodup_cons] at h
    by_cases he : e.path = p
    · rw [removeEntry, if_pos he]
      exact findEntry_not_mem es p (he ▸ h.1)
    · rw [removeEntry, if_neg he]
      rw [findEntry, if_neg he, ih h.2]

/-- Unfolding `substituteInFile` on a readable file. -/
theorem substituteInFile_some (fs : FS) (p : String) (marker value : List Char)
    (indent : Option Nat) (c : List Char) (h : readFile fs p = some c) :
    substituteInFile fs p marker value indent =
      (writeFile fs p (goReplaceAll c marker (indentJoin value indent)), none) := by
  unfold substituteInFile
  rw [h]

/-- Unfolding `substituteInFile` on an unreadable file. -/
theorem substituteInFile_none (fs : FS) (p : String) (marker value : List Char)
    (indent : Option Nat) (h : readFile fs p = none) :
    substituteInFile fs p marker value indent = (fs, some (Err.readErr p)) := by
  unfold substituteInFile
  rw [h]

/-- A walk over distinct readable paths succeeds and substitutes exactly the
visited files, leaving every other path untouched. -/
theorem walkSub_ok (marker value : List Char) (indent : Option Nat) :
    ∀ (ps : List String) (fs : FS), ps.Nodup →
      (∀ p ∈ ps, (readFile fs p).isSome) →
      (walkSub marker value indent ps fs).2 = none ∧
      ∀ x, readFile (walkSub marker value indent ps fs).1 x =
        if x ∈ ps then
          (readFile fs x).map (fun c => goReplaceAll c marker (indentJoin value indent))
        else readFile fs x := by
  intro ps
  induction ps with
  | nil =>
    intro fs hnd hrd
    refine ⟨rfl, fun x => ?_⟩
    simp [walkSub]
  | cons p rest ih =>
    intro fs hnd hrd
    obtain ⟨c, hc⟩ := Option.isSome_iff_exists.1 (hrd p (List.mem_cons_self p rest))
    have hsub := substituteInFile_some fs p marker value indent c hc
    set fs1 := writeFile fs p (goReplaceAll c marker (indentJoin value indent)) with hfs1
    have hread1 : ∀ x, readFile fs1 x =
        if x = p then some (goReplaceAll c marker (indentJoin value indent))
        else readFile fs x :=
      fun x => readFile_writeFile fs p _ x
        (creatable_of_readable fs p (by rw [hc]; rfl))
    simp only [List.nodup_cons] at hnd
    have hrd1 : ∀ q ∈ rest, (readFile fs1 q).isSome := by
      intro q hq
      rw [hread1 q]
      by_cases hqp : q = p
      · simp [hqp]
      · rw [if_neg hqp]
        exact hrd q (List.mem_cons_of_mem p hq)
    obtain ⟨herr, hfin⟩ := ih fs1 hnd.2 hrd1
    have hw : walkSub marker value indent (p :: rest) fs =
        walkSub marker value indent rest fs1 := by
      rw [walkSub, hsub]
    refine ⟨by rw [hw]; exact herr, fun x => ?_⟩
    rw [hw, hfin x]
    by_cases hxp : x = p
    · subst hxp
      rw [if_neg (fun hc2 => hnd.1 hc2), if_pos (List.mem_cons_self x rest)]
      rw [hread1 x, if_pos rfl, hc]
      rfl
    · by_cases hxr : x ∈ rest
      · rw [if_pos hxr, if_pos (List.mem_cons_of_mem p hxr), hread1 x, if_neg hxp]
      · rw [if_neg hxr, hread1 x, if_neg hxp,
          if_neg (by simp [List.mem_cons, hxp, hxr])]

/-- A walk that reaches an unreadable file aborts there, propagates that
file's error, keeps the files already substituted and touches nothing
else. -/
theorem walkSub_fail (marker value : List Char) (indent : Option Nat)
    (q : String) (ps₂ : List String) :
    ∀ (ps₁ : List String) (fs : FS), ps₁.Nodup → q ∉ ps₁ →
      (∀ p ∈ ps₁, (readFile fs p).isSome) → readFile fs q = none →
      (walkSub marker value indent (ps₁ ++ q :: ps₂) fs).2 =
        some (Err.readErr q) ∧
      ∀ x, readFile (walkSub marker value indent (ps₁ ++ q :: ps₂) fs).1 x =
        if x ∈ ps₁ then
          (readFile fs x).map (fun c => goReplaceAll c marker (indentJoin value indent))
        else readFile fs x := by
  intro ps₁
  induction ps₁ with
  | nil =>
    intro fs hnd hq hrd hqn
    have hsub := substituteInFile_none fs q marker value indent hqn
    have hw : walkSub marker value indent ([] ++ q :: ps₂) fs =
        (fs, some (Err.readErr q)) := by
      rw [List.nil_append, walkSub, hsub]
    refine ⟨by rw [hw], fun x => ?_⟩
    rw [hw]
    simp
  | cons p rest ih =>
    intro fs hnd hq hrd hqn
    obtain ⟨c, hc⟩ := Option.isSome_iff_exists.1 (hrd p (List.mem_cons_self p rest))
    have hsub := substituteInFile_some fs p marker value indent c hc
    set fs1 := writeFile fs p (goReplaceAll c marker (indentJoin value indent)) with hfs1
    have hread1 : ∀ x, readFile fs1 x =
        if x = p then some (goReplaceAll c marker (indentJoin value indent))
        else readFile fs x :=
      fun x => readFile_writeFile fs p _ x
        (creatable_of_readable fs p (by rw [hc]; rfl))
    simp only [List.nodup_cons] at hnd
    simp only [List.mem_cons, not_or] at hq
    have hrd1 : ∀ r ∈ rest, (readFile fs1 r).isSome := by
      intro r hr
      rw [hread1 r]
      by_cases hrp : r = p
      · simp [hrp]
      · rw [if_neg hrp]
        exact hrd r (List.mem_cons_of_mem p hr)
    have hqn1 : readFile fs1 q = none := by
      rw [hread1 q, if_neg hq.1, hqn]
    obtain ⟨herr, hfin⟩ := ih fs1 hnd.2 hq.2 hrd1 hqn1
    have hw : walkSub marker value indent ((p :: rest) ++ q :: ps₂) fs =
        walkSub marker value indent (rest ++ q :: ps₂) fs1 := by
      rw [List.cons_append, walkSub, hsub]
    refine ⟨by rw [hw]; exact herr, fun x => ?_⟩
    rw [hw, hfin x]
    by_cases hxp : x = p
    · subst hxp
      rw [if_neg (fun hc2 => hnd.1 hc2), if_pos (List.mem_cons_self x rest)]
      rw [hread1 x, if_pos rfl, hc]
      rfl
    · by_cases hxr : x ∈ rest
      · rw [if_pos hxr, if_pos (List.mem_cons_of_mem p hxr), hread1 x, if_neg hxp]
      · rw [if_neg hxr, hread1 x, if_neg hxp,
          if_neg (by simp [List.mem_cons, hxp, hxr])]

/-- The walked paths are exactly the regular files, each at most once when
the tree's paths are unique. -/
theorem walkOrder_nodup (fs : FS) (h : (fs.map (fun e => e.path)).Nodup) :
    (walkOrder fs).Nodup := by
  have hsub : List.Sublist ((fs.filter (fun e => !e.isDir)).map (fun e => e.path))
      (fs.map (fun e => e.path)) :=
    List.Sublist.map (fun e => e.path) (List.filter_sublist fs)
  exact h.sublist hsub

/-- The counter-driven warning scan is the 1-based enumeration filter. -/
theorem scanWarnAux_enumFrom (path : String) :
    ∀ (ls : List (List Char)) (n : Nat),
      scanWarnAux path n ls = (List.enumFrom n ls).filterMap
        (fun il => if hasOccurrence warningToken il.2 then some (il.1, path)
                   else none) := by
  intro ls
  induction ls with
  | nil => intro n; rfl
  | cons l ls ih =>
    intro n
    rw [scanWarnAux, List.enumFrom_cons, List.filterMap_cons, ih (n + 1)]
    by_cases h : hasOccurrence warningToken l
    · simp [h]
    · simp [h]

/-- Within one action, the executed entry positions are an initial range of
the declared positions; the range is full when no entry aborted. -/
theorem runEntries_trace (oracle : Oracle) (a : Action) :
    ∀ (cs : List ActionContent) (s : RunSt),
      ∃ k, k ≤ cs.length ∧ (runEntries oracle a cs s).2.2 = List.range k ∧
        ((runEntries oracle a cs s).2.1 = false → k = cs.length) := by
  intro cs
  induction cs with
  | nil =>
    intro s
    exact ⟨0, Nat.le_refl 0, rfl, fun _ => rfl⟩
  | cons c rest ih =>
    intro s
    rcases hpc : processContent oracle a c s with ⟨s1, ab⟩
    cases ab with
    | true =>
      refine ⟨1, by simp, ?_, ?_⟩
      · simp only [runEntries, hpc]
        decide
      · simp only [runEntries, hpc]
        intro hcon
        simp at hcon
    | false =>
      obtain ⟨k, hk, htr, himp⟩ := ih s1
      rcases hre : runEntries oracle a rest s1 with ⟨s2, ab2, tr⟩
      rw [hre] at htr himp
      simp only at htr himp
      refine ⟨k + 1, by simpa using Nat.succ_le_succ hk, ?_, ?_⟩
      · simp only [runEntries, hpc, hre]
        rw [htr, List.range_succ_eq_map]
      · simp only [runEntries, hpc, hre]
        intro hab
        rw [himp hab]
        simp

/-- Across the whole manifest, the executed (action, entry) pairs are an
initial segment of declaration order, and the whole of it when nothing
aborted. -/
theorem runActions_trace (oracle : Oracle) :
    ∀ (acts : List Action) (s : RunSt),
      ∃ k, (runActions oracle acts s).2.2 = (declOrder acts).take k ∧
        ((runActions oracle acts s).2.1 = false →
          (runActions oracle acts s).2.2 = declOrder acts) := by
  intro acts
  induction acts with
  | nil =>
    intro s
    exact ⟨0, rfl, fun _ => rfl⟩
  | cons a rest ih =>
    intro s
    obtain ⟨k₁, hk₁, htr, himp⟩ := runEntries_trace oracle a a.content s
    rcases hre : runEntries oracle a a.content s with ⟨s1, ab, tr⟩
    rw [hre] at htr himp
    simp only at htr himp
    cases ab with
    | true =>
      refine ⟨k₁, ?_, ?_⟩
      · simp only [runActions, hre]
        simp only [declOrder]
        rw [List.take_append_of_le_length (by simpa using hk₁)]
        rw [← List.map_take, List.take_range, min_eq_left hk₁, htr]
      · simp only [runActions, hre]
        intro hcon
        simp at hcon
    | false =>
      have hfull : tr = List.range a.content.length := by
        rw [htr, himp rfl]
      obtain ⟨k₂, htr2, himp2⟩ := ih s1
      rcases hra : runActions oracle rest s1 with ⟨s2, ab2, tr2⟩
      rw [hra] at htr2 himp2
      simp only at htr2 himp2
      refine ⟨a.content.length + k₂, ?_, ?_⟩
      · simp only [runActions, hre, hra]
        simp only [declOrder]
        rw [hfull, htr2]
        have ht := @List.take_append (Nat × Nat)
          ((List.range a.content.length).map (fun j => ((0 : Nat), j)))
          ((declOrder rest).map (fun ij => (ij.1 + 1, ij.2))) k₂
        rw [List.length_map, List.length_range] at ht
        rw [ht, ← List.map_take]
      · simp only [runActions, hre, hra]
        intro hab
        simp only [declOrder]
        rw [hfull, himp2 hab]

/-! ## Claims -/

/-- C1: For every manifest, the walker executes actions in declaration
order and, within each action, content entries in declaration order; once
any content entry aborts (fails), no subsequent content entry in the
manifest executes.  The executed (action, entry) trace of `runConfig` is an
initial segment of declaration order, and all of it when nothing
aborted. -/
theorem C1_walker_declaration_order (oracle : Oracle) (config : Config)
    (s : RunSt) :
    ∃ k, (runConfig oracle config s).2.2 = (declOrder config.actions).take k ∧
      ((runConfig oracle config s).2.1 = false →
        (runConfig oracle config s).2.2 = declOrder config.actions) := by
  unfold runConfig
  by_cases h : oracle rmGitParts
  · simp only [h, if_true]
    exact runActions_trace oracle config.actions _
  · simp only [h, if_false]
    refine ⟨0, rfl, ?_⟩
    intro hcon
    simp at hcon

/-- Closed instance of C1 on a two-action manifest whose second entry's
command fails. -/
theorem C1_witness :
    ∃ k,
      (runConfig (fun parts => parts ≠ [['b']])
        ⟨(r"e"), (r"1"),
          [⟨(r"a1"), (r"exec"), [⟨(r""), ['a'], (r""), (r""), [], [], (r""), [], 0⟩,
            ⟨(r""), ['b'], (r""), (r""), [], [], (r""), [], 0⟩,
            ⟨(r""), ['c'], (r""), (r""), [], [], (r""), [], 0⟩]⟩]⟩
        ⟨[], []⟩).2.2 =
        (declOrder [⟨(r"a1"), (r"exec"),
          [⟨(r""), ['a'], (r""), (r""), [], [], (r""), [], 0⟩,
            ⟨(r""), ['b'], (r""), (r""), [], [], (r""), [], 0⟩,
            ⟨(r""), ['c'], (r""), (r""), [], [], (r""), [], 0⟩]⟩]).take k ∧
      ((runConfig (fun parts => parts ≠ [['b']])
        ⟨(r"e"), (r"1"),
          [⟨(r"a1"), (r"exec"), [⟨(r""), ['a'], (r""), (r""), [], [], (r""), [], 0⟩,
            ⟨(r""), ['b'], (r""), (r""), [], [], (r""), [], 0⟩,
            ⟨(r""), ['c'], (r""), (r""), [], [], (r""), [], 0⟩]⟩]⟩
        ⟨[], []⟩).2.1 = false →
        (runConfig (fun parts => parts ≠ [['b']])
        ⟨(r"e"), (r"1"),
          [⟨(r"a1"), (r"exec"), [⟨(r""), ['a'], (r""), (r""), [], [], (r""), [], 0⟩,
            ⟨(r""), ['b'], (r""), (r""), [], [], (r""), [], 0⟩,
            ⟨(r""), ['c'], (r""), (r""), [], [], (r""), [], 0⟩]⟩]⟩
        ⟨[], []⟩).2.2 =
        declOrder [⟨(r"a1"), (r"exec"),
          [⟨(r""), ['a'], (r""), (r""), [], [], (r""), [], 0⟩,
            ⟨(r""), ['b'], (r""), (r""), [], [], (r""), [], 0⟩,
            ⟨(r""), ['c'], (r""), (r""), [], [], (r""), [], 0⟩]⟩]) :=
  C1_walker_declaration_order (fun parts => parts ≠ [['b']])
    ⟨(r"e"), (r"1"),
      [⟨(r"a1"), (r"exec"), [⟨(r""), ['a'], (r""), (r""), [], [], (r""), [], 0⟩,
        ⟨(r""), ['b'], (r""), (r""), [], [], (r""), [], 0⟩,
        ⟨(r""), ['c'], (r""), (r""), [], [], (r""), [], 0⟩]⟩]⟩
    ⟨[], []⟩


/-- C2: For every file content, marker, replacement value and indent,
`substituteInFile` replaces every literal occurrence of the marker in the
file's content with the indented replacement value and writes the result
back; if the marker does not occur in the file, the operation succeeds
without error (silent no-op).  "Every literal occurrence" is witnessed, for
a non-empty marker, by the greedy decomposition of the content into
marker-free pieces separated by occurrences, each occurrence being
rewritten to the indented value. -/
theorem C2_substituteInFile_replaces_all (fs : FS) (p : String)
    (marker value : List Char) (indent : Option Nat) (c : List Char)
    (h : readFile fs p = some c) :
    (substituteInFile fs p marker value indent).2 = none ∧
    readFile (substituteInFile fs p marker value indent).1 p =
      some (goReplaceAll c marker (indentJoin value indent)) ∧
    (hasOccurrence marker c = false →
      readFile (substituteInFile fs p marker value indent).1 p = some c) ∧
    (marker ≠ [] →
      goReplaceAll c marker (indentJoin value indent) =
        joinWith (indentJoin value indent) (goSplit marker c) ∧
      joinWith marker (goSplit marker c) = c ∧
      ∀ q ∈ goSplit marker c, hasOccurrence marker q = false) := by
  have hsub := substituteInFile_some fs p marker value indent c h
  have hcr := creatable_of_readable fs p (by rw [h]; rfl)
  have hrw := readFile_writeFile fs p
    (goReplaceAll c marker (indentJoin value indent)) p hcr
  refine ⟨by rw [hsub], ?_, ?_, ?_⟩
  · rw [hsub]
    simpa using hrw
  · intro hno
    rw [hsub]
    simp only
    rw [hrw, if_pos rfl, goReplaceAll_not_occ c marker _ hno]
  · intro hne
    exact ⟨goReplaceAll_eq_joinWith c marker _ hne,
      joinWith_goSplit marker c hne, goSplit_free marker c hne⟩

/-- Closed instance of C2 on a one-file tree whose content holds two marker
occurrences. -/
theorem C2_witness :
    readFile [⟨(r"f"), false, some ['a', 'X', 'b', 'X']⟩] (r"f") =
      some ['a', 'X', 'b', 'X'] ∧
    ((substituteInFile [⟨(r"f"), false, some ['a', 'X', 'b', 'X']⟩] (r"f")
        ['X'] ['Y'] none).2 = none ∧
    readFile (substituteInFile [⟨(r"f"), false, some ['a', 'X', 'b', 'X']⟩]
        (r"f") ['X'] ['Y'] none).1 (r"f") =
      some (goReplaceAll ['a', 'X', 'b', 'X'] ['X'] (indentJoin ['Y'] none)) ∧
    (hasOccurrence ['X'] ['a', 'X', 'b', 'X'] = false →
      readFile (substituteInFile [⟨(r"f"), false, some ['a', 'X', 'b', 'X']⟩]
          (r"f") ['X'] ['Y'] none).1 (r"f") = some ['a', 'X', 'b', 'X']) ∧
    (['X'] ≠ ([] : List Char) →
      goReplaceAll ['a', 'X', 'b', 'X'] ['X'] (indentJoin ['Y'] none) =
        joinWith (indentJoin ['Y'] none) (goSplit ['X'] ['a', 'X', 'b', 'X']) ∧
      joinWith ['X'] (goSplit ['X'] ['a', 'X', 'b', 'X']) = ['a', 'X', 'b', 'X'] ∧
      ∀ q ∈ goSplit ['X'] ['a', 'X', 'b', 'X'],
        hasOccurrence ['X'] q = false)) :=
  ⟨by decide,
    C2_substituteInFile_replaces_all [⟨(r"f"), false, some ['a', 'X', 'b', 'X']⟩]
      (r"f") ['X'] ['Y'] none ['a', 'X', 'b', 'X'] (by decide)⟩

/-- C3: For every replacement value and non-negative indent n, the
indentation step splits the value on newline boundaries, prepends exactly
n space characters to every line except the first, never indents the first
line, and rejoins with newline separators; value `"a\nb\nc"` with indent 4
yields `"a\n    b\n    c"`, and with indent absent or a single-line value
no line is modified. -/
theorem C3_indentation (value : List Char) (n : Nat) :
    indentBlock value (some n) =
      (splitNl value).headD [] ::
        ((splitNl value).tail).map (fun l => List.replicate n ' ' ++ l) ∧
    indentJoin value none = value ∧
    indentJoin value (some 0) = value ∧
    ('\n' ∉ value → indentJoin value (some n) = value) ∧
    indentJoin ['a', '\n', 'b', '\n', 'c'] (some 4) =
      ['a', '\n', ' ', ' ', ' ', ' ', 'b', '\n', ' ', ' ', ' ', ' ', 'c'] :=
  ⟨indentBlock_some value n, indentJoin_none value, indentJoin_zero value,
    indentJoin_single value n, by decide⟩

/-- Closed instance of C3 on the spec's example value and indent. -/
theorem C3_witness :
    indentBlock ['a', '\n', 'b', '\n', 'c'] (some 4) =
      (splitNl ['a', '\n', 'b', '\n', 'c']).headD [] ::
        ((splitNl ['a', '\n', 'b', '\n', 'c']).tail).map
          (fun l => List.replicate 4 ' ' ++ l) ∧
    indentJoin ['a', '\n', 'b', '\n', 'c'] none = ['a', '\n', 'b', '\n', 'c'] ∧
    indentJoin ['a', '\n', 'b', '\n', 'c'] (some 0) = ['a', '\n', 'b', '\n', 'c'] ∧
    ('\n' ∉ ['a', '\n', 'b', '\n', 'c'] →
      indentJoin ['a', '\n', 'b', '\n', 'c'] (some 4) = ['a', '\n', 'b', '\n', 'c']) ∧
    indentJoin ['a', '\n', 'b', '\n', 'c'] (some 4) =
      ['a', '\n', ' ', ' ', ' ', ' ', 'b', '\n', ' ', ' ', ' ', ' ', 'c'] :=
  C3_indentation ['a', '\n', 'b', '\n', 'c'] 4

/-- C4: For every replace/substitute entry, an empty path means the
substitution is applied to every regular file (not directories) of the
entire working tree from its root, not a no-op; the first single-file
failure aborts the whole walk and propagates that file's error, and files
already modified earlier in the walk are not rolled back. -/
theorem C4_empty_path_walks_tree (fs : FS) (marker value : List Char)
    (indent : Option Nat) (hnd : (fs.map (fun e => e.path)).Nodup) :
    substituteFile fs (r"") marker value indent =
      substituteInPath fs marker value indent ∧
    ((∀ p ∈ walkOrder fs, (readFile fs p).isSome) →
      (substituteInPath fs marker value indent).2 = none ∧
      (∀ p ∈ walkOrder fs,
        readFile (substituteInPath fs marker value indent).1 p =
          (readFile fs p).map
            (fun c => goReplaceAll c marker (indentJoin value indent))) ∧
      (∀ p, p ∉ walkOrder fs →
        readFile (substituteInPath fs marker value indent).1 p =
          readFile fs p)) ∧
    (∀ ps₁ q ps₂, walkOrder fs = ps₁ ++ q :: ps₂ →
      (∀ p ∈ ps₁, (readFile fs p).isSome) → readFile fs q = none →
      (substituteInPath fs marker value indent).2 = some (Err.readErr q) ∧
      (∀ p ∈ ps₁,
        readFile (substituteInPath fs marker value indent).1 p =
          (readFile fs p).map
            (fun c => goReplaceAll c marker (indentJoin value indent))) ∧
      (∀ p, p ∉ ps₁ →
        readFile (substituteInPath fs marker value indent).1 p =
          readFile fs p)) := by
  refine ⟨by simp [substituteFile], ?_, ?_⟩
  · intro hrd
    obtain ⟨herr, hfin⟩ := walkSub_ok marker value indent (walkOrder fs) fs
      (walkOrder_nodup fs hnd) hrd
    refine ⟨herr, ?_, ?_⟩
    · intro p hp
      rw [show substituteInPath fs marker value indent =
        walkSub marker value indent (walkOrder fs) fs from rfl, hfin p, if_pos hp]
    · intro p hp
      rw [show substituteInPath fs marker value indent =
        walkSub marker value indent (walkOrder fs) fs from rfl, hfin p, if_neg hp]
  · intro ps₁ q ps₂ hsplit hrd hqn
    have hnodup : (ps₁ ++ q :: ps₂).Nodup := hsplit ▸ walkOrder_nodup fs hnd
    rw [List.nodup_append] at hnodup
    have hq : q ∉ ps₁ := fun hmem =>
      hnodup.2.2 hmem (List.mem_cons_self q ps₂)
    obtain ⟨herr, hfin⟩ := walkSub_fail marker value indent q ps₂ ps₁ fs
      hnodup.1 hq hrd hqn
    have hpath : substituteInPath fs marker value indent =
        walkSub marker value indent (ps₁ ++ q :: ps₂) fs := by
      rw [substituteInPath, hsplit]
    refine ⟨by rw [hpath]; exact herr, ?_, ?_⟩
    · intro p hp
      rw [hpath, hfin p, if_pos hp]
    · intro p hp
      rw [hpath, hfin p, if_neg hp]

/-- Closed instance of C4 on a tree with one directory, one readable file
and one unreadable file. -/
theorem C4_witness :
    (([⟨(r"a"), false, some ['X']⟩, ⟨(r"d"), true, none⟩,
        ⟨(r"b"), false, none⟩] : FS).map (fun e => e.path)).Nodup ∧
    (substituteFile [⟨(r"a"), false, some ['X']⟩, ⟨(r"d"), true, none⟩,
        ⟨(r"b"), false, none⟩] (r"") ['X'] ['Y'] none =
      substituteInPath [⟨(r"a"), false, some ['X']⟩, ⟨(r"d"), true, none⟩,
        ⟨(r"b"), false, none⟩] ['X'] ['Y'] none ∧
    ((∀ p ∈ walkOrder [⟨(r"a"), false, some ['X']⟩, ⟨(r"d"), true, none⟩,
        ⟨(r"b"), false, none⟩],
        (readFile [⟨(r"a"), false, some ['X']⟩, ⟨(r"d"), true, none⟩,
          ⟨(r"b"), false, none⟩] p).isSome) →
      (substituteInPath [⟨(r"a"), false, some ['X']⟩, ⟨(r"d"), true, none⟩,
        ⟨(r"b"), false, none⟩] ['X'] ['Y'] none).2 = none ∧
      (∀ p ∈ walkOrder [⟨(r"a"), false, some ['X']⟩, ⟨(r"d"), true, none⟩,
          ⟨(r"b"), false, none⟩],
        readFile (substituteInPath [⟨(r"a"), false, some ['X']⟩,
            ⟨(r"d"), true, none⟩, ⟨(r"b"), false, none⟩] ['X'] ['Y'] none).1 p =
          (readFile [⟨(r"a"), false, some ['X']⟩, ⟨(r"d"), true, none⟩,
            ⟨(r"b"), false, none⟩] p).map
              (fun c => goReplaceAll c ['X'] (indentJoin ['Y'] none))) ∧
      (∀ p, p ∉ walkOrder [⟨(r"a"), false, some ['X']⟩, ⟨(r"d"), true, none⟩,
          ⟨(r"b"), false, none⟩] →
        readFile (substituteInPath [⟨(r"a"), false, some ['X']⟩,
            ⟨(r"d"), true, none⟩, ⟨(r"b"), false, none⟩] ['X'] ['Y'] none).1 p =
          readFile [⟨(r"a"), false, some ['X']⟩, ⟨(r"d"), true, none⟩,
            ⟨(r"b"), false, none⟩] p)) ∧
    (∀ ps₁ q ps₂, walkOrder [⟨(r"a"), false, some ['X']⟩, ⟨(r"d"), true, none⟩,
        ⟨(r"b"), false, none⟩] = ps₁ ++ q :: ps₂ →
      (∀ p ∈ ps₁, (readFile [⟨(r"a"), false, some ['X']⟩, ⟨(r"d"), true, none⟩,
        ⟨(r"b"), false, none⟩] p).isSome) →
      readFile [⟨(r"a"), false, some ['X']⟩, ⟨(r"d"), true, none⟩,
        ⟨(r"b"), false, none⟩] q = none →
      (substituteInPath [⟨(r"a"), false, some ['X']⟩, ⟨(r"d"), true, none⟩,
        ⟨(r"b"), false, none⟩] ['X'] ['Y'] none).2 = some (Err.readErr q) ∧
      (∀ p ∈ ps₁,
        readFile (substituteInPath [⟨(r"a"), false, some ['X']⟩,
            ⟨(r"d"), true, none⟩, ⟨(r"b"), false, none⟩] ['X'] ['Y'] none).1 p =
          (readFile [⟨(r"a"), false, some ['X']⟩, ⟨(r"d"), true, none⟩,
            ⟨(r"b"), false, none⟩] p).map
              (fun c => goReplaceAll c ['X'] (indentJoin ['Y'] none))) ∧
      (∀ p, p ∉ ps₁ →
        readFile (substituteInPath [⟨(r"a"), false, some ['X']⟩,
            ⟨(r"d"), true, none⟩, ⟨(r"b"), false, none⟩] ['X'] ['Y'] none).1 p =
          readFile [⟨(r"a"), false, some ['X']⟩, ⟨(r"d"), true, none⟩,
            ⟨(r"b"), false, none⟩] p))) :=
  ⟨by decide,
    C4_empty_path_walks_tree [⟨(r"a"), false, some ['X']⟩, ⟨(r"d"), true, none⟩,
      ⟨(r"b"), false, none⟩] ['X'] ['Y'] none (by decide)⟩

/-- C5: For every content entry whose resolved effective type (entry type
if non-empty, else the action's default type) matches none of the seven
dispatch cases, the dispatcher performs no filesystem or process side
effect, raises no error, and the run continues with the next entry. -/
theorem C5_unrecognized_type_noop (oracle : Oracle) (action : Action)
    (c : ActionContent) (s : RunSt)
    (h : (if c.type = "" then action.type else c.type) ∉
      [(r"exec"), (r"replace"), (r"substitute"), (r"copy"), (r"template"),
        (r"move"), (r"delete")]) :
    processContent oracle action c s = (s, false) := by
  simp only [List.mem_cons, List.mem_singleton, not_or] at h
  obtain ⟨h1, h2, h3, h4, h5, h6, h7⟩ := h
  simp [processContent, h1, h2, h3, h4, h5, h6, h7]

/-- Closed instance of C5 on a `frobnicate` entry. -/
theorem C5_witness :
    ((if (⟨(r"frobnicate"), ['x'], (r"s"), (r"d"), ['v'], ['t'], (r"p"),
        ['w'], 2⟩ : ActionContent).type = ""
      then (⟨(r"a"), (r"exec"), []⟩ : Action).type
      else (⟨(r"frobnicate"), ['x'], (r"s"), (r"d"), ['v'], ['t'], (r"p"),
        ['w'], 2⟩ : ActionContent).type) ∉
      [(r"exec"), (r"replace"), (r"substitute"), (r"copy"), (r"template"),
        (r"move"), (r"delete")]) ∧
    processContent (fun _ => true) ⟨(r"a"), (r"exec"), []⟩
      ⟨(r"frobnicate"), ['x'], (r"s"), (r"d"), ['v'], ['t'], (r"p"), ['w'], 2⟩
      ⟨[⟨(r"f"), false, some ['z']⟩], []⟩ =
      (⟨[⟨(r"f"), false, some ['z']⟩], []⟩, false) :=
  ⟨by decide,
    C5_unrecognized_type_noop (fun _ => true) ⟨(r"a"), (r"exec"), []⟩
      ⟨(r"frobnicate"), ['x'], (r"s"), (r"d"), ['v'], ['t'], (r"p"), ['w'], 2⟩
      ⟨[⟨(r"f"), false, some ['z']⟩], []⟩ (by decide)⟩

/-- C6: For every source path src that exists and destination path dst that
does not exist, after `moveFile src dst` succeeds, dst holds src's original
byte content and src no longer exists (`moveFile` is composed as
copy-then-delete, not an atomic rename). -/
theorem C6_moveFile (fs : FS) (src dst : String) (c : List Char)
    (hnd : (fs.map (fun e => e.path)).Nodup)
    (hs : readFile fs src = some c) (hd : findEntry fs dst = none) :
    (moveFile fs src dst).2 = none ∧
    readFile (moveFile fs src dst).1 dst = some c ∧
    findEntry (moveFile fs src dst).1 src = none := by
  obtain ⟨e, he⟩ : ∃ e, findEntry fs src = some e := by
    unfold readFile at hs
    cases heq : findEntry fs src with
    | none => rw [heq] at hs; exact absurd hs (by simp)
    | some e => exact ⟨e, rfl⟩
  have hsd : src ≠ dst := by
    intro hc
    rw [hc, hd] at he
    exact absurd he (by simp)
  have hcr : creatable fs dst = true := by
    unfold creatable
    rw [hd]
  have hread1 : ∀ x, readFile (writeFile fs dst []) x =
      if x = dst then some [] else readFile fs x :=
    fun x => readFile_writeFile fs dst [] x hcr
  have hcr1 : creatable (writeFile fs dst []) dst = true :=
    creatable_of_readable _ dst (by rw [hread1 dst, if_pos rfl]; rfl)
  have hread2 : ∀ x, readFile (writeFile (writeFile fs dst []) dst c) x =
      if x = dst then some c else readFile (writeFile fs dst []) x :=
    fun x => readFile_writeFile (writeFile fs dst []) dst c x hcr1
  have hcopy : copyFile fs src dst = (writeFile (writeFile fs dst []) dst c, none) := by
    simp only [copyFile, hs]
  have hfind2 : findEntry (writeFile (writeFile fs dst []) dst c) src =
      some e := by
    rw [findEntry_writeFile_ne _ dst c src hsd,
      findEntry_writeFile_ne _ dst [] src hsd, he]
  have hdel : deleteFile (writeFile (writeFile fs dst []) dst c) src =
      (removeEntry (writeFile (writeFile fs dst []) dst c) src, none) := by
    simp only [deleteFile, hfind2]
  have hmove : moveFile fs src dst =
      (removeEntry (writeFile (writeFile fs dst []) dst c) src, none) := by
    simp only [moveFile, hcopy, hdel]
  have hnd2 : ((writeFile (writeFile fs dst []) dst c).map
      (fun e => e.path)).Nodup :=
    writeFile_nodup _ dst c (writeFile_nodup fs dst [] hnd)
  refine ⟨by rw [hmove], ?_, ?_⟩
  · rw [hmove]
    simp only
    have hrd : readFile (removeEntry (writeFile (writeFile fs dst []) dst c) src)
        dst = readFile (writeFile (writeFile fs dst []) dst c) dst := by
      unfold readFile
      rw [findEntry_removeEntry_ne _ src dst (fun hc => hsd hc.symm)]
    rw [hrd, hread2 dst, if_pos rfl]
  · rw [hmove]
    simp only
    exact findEntry_removeEntry_self _ src hnd2

/-- Closed instance of C6 moving a one-byte file to a fresh path. -/
theorem C6_witness :
    (([⟨(r"s"), false, some ['h']⟩] : FS).map (fun e => e.path)).Nodup ∧
    readFile [⟨(r"s"), false, some ['h']⟩] (r"s") = some ['h'] ∧
    findEntry [⟨(r"s"), false, some ['h']⟩] (r"t") = none ∧
    ((moveFile [⟨(r"s"), false, some ['h']⟩] (r"s") (r"t")).2 = none ∧
    readFile (moveFile [⟨(r"s"), false, some ['h']⟩] (r"s") (r"t")).1 (r"t") =
      some ['h'] ∧
    findEntry (moveFile [⟨(r"s"), false, some ['h']⟩] (r"s") (r"t")).1 (r"s") =
      none) :=
  ⟨by decide, by decide, by decide,
    C6_moveFile [⟨(r"s"), false, some ['h']⟩] (r"s") (r"t") ['h']
      (by decide) (by decide) (by decide)⟩

/-- C7: `substituteInFile` is idempotent when the marker cannot re-match
the substituted value: for any file content in which the marker no longer
occurs after a first substitution, running the same substitution a second
time leaves the file (and the whole tree) unchanged. -/
theorem C7_substitute_idempotent (fs : FS) (p : String)
    (marker value : List Char) (indent : Option Nat) (c : List Char)
    (h : readFile fs p = some c)
    (hno : hasOccurrence marker
      (goReplaceAll c marker (indentJoin value indent)) = false) :
    substituteInFile (substituteInFile fs p marker value indent).1 p
        marker value indent =
      ((substituteInFile fs p marker value indent).1, none) := by
  have hsub := substituteInFile_some fs p marker value indent c h
  have hcr := creatable_of_readable fs p (by rw [h]; rfl)
  have hread1 : readFile (substituteInFile fs p marker value indent).1 p =
      some (goReplaceAll c marker (indentJoin value indent)) := by
    rw [hsub]
    simpa using readFile_writeFile fs p
      (goReplaceAll c marker (indentJoin value indent)) p hcr
  have hsub2 := substituteInFile_some (substituteInFile fs p marker value indent).1
    p marker value indent _ hread1
  rw [hsub2, goReplaceAll_not_occ _ marker _ hno]
  rw [writeFile_self _ p _ hread1]

/-- Closed instance of C7: substituting `X` by `Y` twice. -/
theorem C7_witness :
    readFile [⟨(r"f"), false, some ['a', 'X']⟩] (r"f") = some ['a', 'X'] ∧
    hasOccurrence ['X']
      (goReplaceAll ['a', 'X'] ['X'] (indentJoin ['Y'] none)) = false ∧
    substituteInFile
        (substituteInFile [⟨(r"f"), false, some ['a', 'X']⟩] (r"f")
          ['X'] ['Y'] none).1 (r"f") ['X'] ['Y'] none =
      ((substituteInFile [⟨(r"f"), false, some ['a', 'X']⟩] (r"f")
          ['X'] ['Y'] none).1, none) :=
  ⟨by decide,
    by
      simp only [indentJoin_none]
      simp [goReplaceAll, replAux, leadsWith, hasOccurrence],
    C7_substitute_idempotent [⟨(r"f"), false, some ['a', 'X']⟩] (r"f")
      ['X'] ['Y'] none ['a', 'X'] (by decide)
      (by
        simp only [indentJoin_none]
        simp [goReplaceAll, replAux, leadsWith, hasOccurrence])⟩

/-- C8: For every file the warning scanner can open, it reports exactly
one location per line containing the fixed marker token, giving that
line's 1-based line number and the file's relative path; a file containing
the token on lines 3 and 10 yields exactly two reports with line numbers 3
and 10. -/
theorem C8_warning_scan (path : String) (content : List Char) :
    processWarningInFile path content =
      (List.enumFrom 1 (goLines content)).filterMap
        (fun il => if hasOccurrence warningToken il.2 then some (il.1, path)
                   else none) ∧
    processWarningInFile (r"f")
        (joinWith ['\n'] [['a'], ['b'], warningToken, ['d'], ['e'], ['f'],
          ['g'], ['h'], ['i'], warningToken]) =
      [(3, (r"f")), (10, (r"f"))] := by
  refine ⟨scanWarnAux_enumFrom path (goLines content) 1, ?_⟩
  decide

/-- C9: When `copyFile`'s source cannot be opened, the function returns
the source's open error but has already created (or truncated to empty)
the destination file as a side effect before returning; the destination is
not left unchanged on this error. -/
theorem C9_copyFile_creates_dest_on_open_error (fs : FS) (src dst : String)
    (h : readFile fs src = none) (hc : creatable fs dst = true) :
    (copyFile fs src dst).2 = some (Err.openErr src) ∧
    readFile (copyFile fs src dst).1 dst = some [] := by
  have hcopy : copyFile fs src dst =
      (writeFile fs dst [], some (Err.openErr src)) := by
    simp only [copyFile, h]
  rw [hcopy]
  refine ⟨rfl, ?_⟩
  simp only
  rw [readFile_writeFile fs dst [] dst hc, if_pos rfl]

/-- Closed instance of C9 copying from a missing source. -/
theorem C9_witness :
    readFile [⟨(r"d"), true, none⟩] (r"missing") = none ∧
    creatable [⟨(r"d"), true, none⟩] (r"out") = true ∧
    ((copyFile [⟨(r"d"), true, none⟩] (r"missing") (r"out")).2 =
      some (Err.openErr (r"missing")) ∧
    readFile (copyFile [⟨(r"d"), true, none⟩] (r"missing") (r"out")).1
      (r"out") = some []) :=
  ⟨by decide, by decide,
    C9_copyFile_creates_dest_on_open_error [⟨(r"d"), true, none⟩]
      (r"missing") (r"out") (by decide) (by decide)⟩

/-- C10: For every replace/substitute content entry, the dispatcher trims
leading and trailing whitespace from the entry's value before it is used
as the replacement, so a value with surrounding whitespace or blank
leading/trailing lines is inserted without them. -/
theorem C10_value_trimmed (oracle : Oracle) (action : Action)
    (c : ActionContent) (s : RunSt)
    (ht : (if c.type = "" then action.type else c.type) = (r"replace") ∨
      (if c.type = "" then action.type else c.type) = (r"substitute")) :
    processContent oracle action c s =
      (match substituteFile s.fs c.path
          (if (if c.type = "" then action.type else c.type) = (r"replace")
           then c.text else framedMarker c.varname)
          (trimSpace c.value) (some c.indent) with
       | (fs1, none) => ({ s with fs := fs1 }, false)
       | (fs1, some _) => ({ s with fs := fs1 }, true)) ∧
    (∃ pre post, pre ++ trimSpace c.value ++ post = c.value ∧
      pre.all goIsSpace = true ∧ post.all goIsSpace = true) ∧
    (∀ a, (trimSpace c.value).head? = some a → goIsSpace a = false) ∧
    (∀ a, (trimSpace c.value).getLast? = some a → goIsSpace a = false) := by
  refine ⟨?_, trimSpace_decomp c.value,
    fun a ha => trimSpace_head c.value a ha,
    fun a ha => trimSpace_last c.value a ha⟩
  rcases ht with h | h
  · simp only [processContent, h]
    simp
  · simp only [processContent, h]
    simp

/-- Closed instance of C10 on a replace entry whose value carries
surrounding blanks. -/
theorem C10_witness :
    ((if (⟨(r"replace"), [], (r""), (r""), [], ['T'], (r"f"),
        [' ', 'q', ' '], 0⟩ : ActionContent).type = ""
      then (⟨(r"a"), (r""), []⟩ : Action).type
      else (⟨(r"replace"), [], (r""), (r""), [], ['T'], (r"f"),
        [' ', 'q', ' '], 0⟩ : ActionContent).type) = (r"replace") ∨
     (if (⟨(r"replace"), [], (r""), (r""), [], ['T'], (r"f"),
        [' ', 'q', ' '], 0⟩ : ActionContent).type = ""
      then (⟨(r"a"), (r""), []⟩ : Action).type
      else (⟨(r"replace"), [], (r""), (r""), [], ['T'], (r"f"),
        [' ', 'q', ' '], 0⟩ : ActionContent).type) = (r"substitute")) ∧
    (processContent (fun _ => true) ⟨(r"a"), (r""), []⟩
        ⟨(r"replace"), [], (r""), (r""), [], ['T'], (r"f"), [' ', 'q', ' '], 0⟩
        ⟨[⟨(r"f"), false, some ['T']⟩], []⟩ =
      (match substituteFile
          (⟨[⟨(r"f"), false, some ['T']⟩], []⟩ : RunSt).fs
          (⟨(r"replace"), [], (r""), (r""), [], ['T'], (r"f"),
            [' ', 'q', ' '], 0⟩ : ActionContent).path
          (if (if (⟨(r"replace"), [], (r""), (r""), [], ['T'], (r"f"),
              [' ', 'q', ' '], 0⟩ : ActionContent).type = ""
            then (⟨(r"a"), (r""), []⟩ : Action).type
            else (⟨(r"replace"), [], (r""), (r""), [], ['T'], (r"f"),
              [' ', 'q', ' '], 0⟩ : ActionContent).type) = (r"replace")
           then (⟨(r"replace"), [], (r""), (r""), [], ['T'], (r"f"),
              [' ', 'q', ' '], 0⟩ : ActionContent).text
           else framedMarker (⟨(r"replace"), [], (r""), (r""), [], ['T'],
              (r"f"), [' ', 'q', ' '], 0⟩ : ActionContent).varname)
          (trimSpace (⟨(r"replace"), [], (r""), (r""), [], ['T'], (r"f"),
            [' ', 'q', ' '], 0⟩ : ActionContent).value)
          (some (⟨(r"replace"), [], (r""), (r""), [], ['T'], (r"f"),
            [' ', 'q', ' '], 0⟩ : ActionContent).indent) with
       | (fs1, none) =>
         ({ (⟨[⟨(r"f"), false, some ['T']⟩], []⟩ : RunSt) with fs := fs1 }, false)
       | (fs1, some _) =>
         ({ (⟨[⟨(r"f"), false, some ['T']⟩], []⟩ : RunSt) with fs := fs1 }, true)) ∧
    (∃ pre post, pre ++ trimSpace [' ', 'q', ' '] ++ post = [' ', 'q', ' '] ∧
      pre.all goIsSpace = true ∧ post.all goIsSpace = true) ∧
    (∀ a, (trimSpace [' ', 'q', ' ']).head? = some a → goIsSpace a = false) ∧
    (∀ a, (trimSpace [' ', 'q', ' ']).getLast? = some a → goIsSpace a = false)) :=
  ⟨by decide,
    C10_value_trimmed (fun _ => true) ⟨(r"a"), (r""), []⟩
      ⟨(r"replace"), [], (r""), (r""), [], ['T'], (r"f"), [' ', 'q', ' '], 0⟩
      ⟨[⟨(r"f"), false, some ['T']⟩], []⟩ (by decide)⟩

end Cappuccino
